import Mathlib

/-!
Verification of the staticsite content pipeline against its specification.

The Python source is shallowly embedded: Python dicts become association
lists with in-place update semantics (`pySet`, `pyGet`, `pyUpdate`),
datetimes become integers, fallible operations return `Option`, and
filesystem paths are lists of path components.
-/

namespace Staticsite

/-! ## Python dict model

Python dicts keyed by strings, modelled as association lists.
`d[k] = v` replaces the value in place when the key exists, else appends;
`d.get(k)` returns the value of the unique binding; `d.update(other)`
assigns every binding of `other` in order.
-/

/-- `d[k] = v` on a Python dict. -/
def pySet {A : Type} (d : List (String × A)) (k : String) (v : A) : List (String × A) :=
  match d with
  | [] => [(k, v)]
  | (k', v') :: rest =>
      if k' = k then (k', v) :: rest else (k', v') :: pySet rest k v

/-- `d.get(k)` on a Python dict: the first (hence unique) binding for `k`. -/
def pyGet {A : Type} (d : List (String × A)) (k : String) : Option A :=
  match d with
  | [] => none
  | (k', v') :: rest => if k' = k then some v' else pyGet rest k

/-- `d.update(other)` on a Python dict: assign every binding of `other` in order. -/
def pyUpdate {A : Type} (d other : List (String × A)) : List (String × A) :=
  other.foldl (fun acc kv => pySet acc kv.1 kv.2) d

/-- The value which the update list `other` would leave at key `k`:
the value of the last binding of `k` in `other`, if any. -/
def lastBinding {A : Type} (other : List (String × A)) (k : String) : Option A :=
  other.foldl (fun acc kv => if kv.1 = k then some kv.2 else acc) none

theorem pyGet_pySet {A : Type} (d : List (String × A)) (k : String) (v : A) (k' : String) :
    pyGet (pySet d k v) k' = if k = k' then some v else pyGet d k' := by
  induction d with
  | nil =>
      by_cases h : k = k' <;> simp [pySet, pyGet, h]
  | cons kv rest ih =>
      obtain ⟨k₀, v₀⟩ := kv
      by_cases h₀ : k₀ = k
      · subst h₀
        by_cases h : k₀ = k' <;> simp [pySet, pyGet, h]
      · simp only [pySet, if_neg h₀, pyGet]
        by_cases h : k₀ = k'
        · subst h
          have : ¬ k = k₀ := fun hh => h₀ hh.symm
          simp [this]
        · simp [h, ih]

/-- `o` when it is `some`, else the fallback value. -/
def orFallback {A : Type} (o fallback : Option A) : Option A :=
  match o with
  | some v => some v
  | none => fallback

theorem orFallback_none {A : Type} (fallback : Option A) : orFallback none fallback = fallback := rfl

theorem orFallback_some {A : Type} (v : A) (fallback : Option A) :
    orFallback (some v) fallback = some v := rfl

theorem lastBinding_append {A : Type} (xs ys : List (String × A)) (k : String) :
    lastBinding (xs ++ ys) k = orFallback (lastBinding ys k) (lastBinding xs k) := by
  induction ys using List.reverseRecOn with
  | nil => simp [lastBinding, orFallback]
  | append_singleton ys kv ih =>
      simp only [lastBinding, ← List.append_assoc, List.foldl_append, List.foldl_cons,
        List.foldl_nil] at *
      by_cases h : kv.1 = k
      · simp [h, orFallback]
      · simp only [if_neg h, ih]

theorem pyGet_pyUpdate {A : Type} (d other : List (String × A)) (k : String) :
    pyGet (pyUpdate d other) k = orFallback (lastBinding other k) (pyGet d k) := by
  induction other using List.reverseRecOn with
  | nil => simp [pyUpdate, lastBinding, orFallback]
  | append_singleton other kv ih =>
      simp only [pyUpdate, List.foldl_append, List.foldl_cons, List.foldl_nil] at *
      rw [pyGet_pySet, lastBinding_append]
      by_cases h : kv.1 = k
      · have hlb : lastBinding [kv] k = some kv.2 := by simp [lastBinding, h]
        rw [hlb, if_pos h]
        simp [orFallback]
      · have hlb : lastBinding [kv] k = none := by simp [lastBinding, h]
        rw [hlb, orFallback_none, if_neg h]
        exact ih

/-! ## Metadata layering (`contents.py`, `Dir.scan`)

`Dir.scan` computes the metadata of each file in a directory: a copy of
the directory's own effective metadata `self.meta`, updated by the
metadata delta of every file rule whose compiled pattern matches the
file name, in rule order.
A compiled pattern (`compile_page_match`) is modelled by its matching
predicate on names.
-/

/-- Per-file metadata computation from `Dir.scan`:
`res = dict(self.meta); for pattern, meta in self.file_rules: if pattern.match(fname): res.update(meta)`. -/
def scanFileMeta (dirMeta : List (String × String))
    (fileRules : List ((String → Bool) × List (String × String)))
    (fname : String) : List (String × String) :=
  fileRules.foldl (fun res rule => if rule.1 fname then pyUpdate res rule.2 else res) dirMeta

/-- The metadata deltas of the rules matching `fname`, in declaration order. -/
def matchingDeltas (fileRules : List ((String → Bool) × List (String × String)))
    (fname : String) : List (List (String × String)) :=
  (fileRules.filter (fun rule => rule.1 fname)).map (fun rule => rule.2)

/-- The value that layering the deltas leaves at key `k`: the last
matching delta that binds `k` wins; `none` when no delta binds `k`. -/
def layeredValue (deltas : List (List (String × String))) (k : String) : Option String :=
  deltas.foldl (fun acc d => orFallback (lastBinding d k) acc) none

theorem scanFileMeta_eq_fold_matching (dirMeta : List (String × String))
    (fileRules : List ((String → Bool) × List (String × String))) (fname : String) :
    scanFileMeta dirMeta fileRules fname
      = (matchingDeltas fileRules fname).foldl (fun res d => pyUpdate res d) dirMeta := by
  induction fileRules generalizing dirMeta with
  | nil => rfl
  | cons rule rest ih =>
      by_cases h : rule.1 fname
      · simp [scanFileMeta, matchingDeltas, h, List.filter_cons] at *
        exact ih (pyUpdate dirMeta rule.2)
      · simp [scanFileMeta, matchingDeltas, h, List.filter_cons] at *
        exact ih dirMeta

theorem pyGet_fold_pyUpdate (dirMeta : List (String × String))
    (deltas : List (List (String × String))) (k : String) :
    pyGet (deltas.foldl (fun res d => pyUpdate res d) dirMeta) k
      = orFallback (layeredValue deltas k) (pyGet dirMeta k) := by
  induction deltas using List.reverseRecOn with
  | nil => simp [layeredValue, orFallback]
  | append_singleton deltas d ih =>
      simp only [List.foldl_append, List.foldl_cons, List.foldl_nil, layeredValue] at *
      rw [pyGet_pyUpdate, ih]
      cases lastBinding d k <;> simp [orFallback]

/-- C3: for a directory with effective metadata `dirMeta` and file rules in
declaration order, each file's computed metadata equals a copy of `dirMeta`
updated in turn by the delta of each rule whose pattern matches the name;
at every key the last matching delta binding the key overwrites earlier ones,
keys bound by no matching delta keep the inherited value; and a file matched
by no rule keeps exactly the inherited copy of `dirMeta`. -/
theorem claim_C3_metadata_layering (dirMeta : List (String × String))
    (fileRules : List ((String → Bool) × List (String × String))) (fname : String) :
    scanFileMeta dirMeta fileRules fname
        = (matchingDeltas fileRules fname).foldl (fun res d => pyUpdate res d) dirMeta
      ∧ (∀ k, pyGet (scanFileMeta dirMeta fileRules fname) k
          = orFallback (layeredValue (matchingDeltas fileRules fname) k) (pyGet dirMeta k))
      ∧ (matchingDeltas fileRules fname = [] → scanFileMeta dirMeta fileRules fname = dirMeta) := by
  refine ⟨scanFileMeta_eq_fold_matching dirMeta fileRules fname, ?_, ?_⟩
  · intro k
    rw [scanFileMeta_eq_fold_matching, pyGet_fold_pyUpdate]
  · intro hempty
    rw [scanFileMeta_eq_fold_matching, hempty]
    rfl

theorem claim_C3_metadata_layering_witness :
    scanFileMeta [("color", "red")]
        [(fun n => n == "a.md", [("color", "blue")])] "a.txt"
      = [("color", "red")]
    ∧ pyGet (scanFileMeta [("color", "red")]
        [(fun n => n == "a.md", [("color", "blue")])] "a.md") "color"
      = some "blue" :=
  ⟨(claim_C3_metadata_layering [("color", "red")]
      [(fun n => n == "a.md", [("color", "blue")])] "a.txt").2.2 (by decide),
   by
    rw [(claim_C3_metadata_layering [("color", "red")]
      [(fun n => n == "a.md", [("color", "blue")])] "a.md").2.1 "color"]
    decide⟩

/-! ## Page registry and draft policy (`site.py`, `page.py`)

`Site.add_page` is the single entry point to the page registry
`self.pages`, a dict keyed by `page.src_linkpath`.  It first applies the
future-date policy (`settings.DRAFT_MODE`, `site.generation_time`), then
stores the page and fires the metadata-triggered feature hooks.
Datetimes are modelled as integers; a feature's `add_page` hook call is
recorded as a `(feature name, page)` event.
-/

/-- The slice of a `Page` that `Site.add_page` and `Page.draft` consult. -/
structure PageV where
  /-- `page.src_relpath` -/
  srcRelpath : String
  /-- `page.src_linkpath`, the registry key used by `Site.add_page` -/
  srcLinkpath : String
  /-- `page.meta["site_path"]` -/
  sitePath : String
  /-- `page.meta.get("date", None)`, as a timestamp -/
  date : Option Int
  /-- the keys present in `page.meta` -/
  metaKeys : List String
deriving DecidableEq, Repr

/-- The mutable site state touched by `Site.add_page`. -/
structure SiteState where
  /-- `settings.DRAFT_MODE` -/
  draftMode : Bool
  /-- `site.generation_time` -/
  generationTime : Int
  /-- `site.pages`, keyed by `src_linkpath` -/
  pages : List (String × PageV)
  /-- `site.features.metadata_hooks`: metadata name to interested feature names -/
  metadataHooks : List (String × List String)
  /-- trace of `feature.add_page(page)` hook invocations, in order -/
  hookCalls : List (String × PageV)
deriving DecidableEq, Repr

/-- The `trigger_features` set of `Site.add_page`: every feature hooked on a
metadata name the page carries, collected without duplicates. -/
def triggerFeatures (hooks : List (String × List String)) (metaKeys : List String) :
    List String :=
  hooks.foldl
    (fun acc h =>
      if h.1 ∈ metaKeys then
        h.2.foldl (fun a f => if f ∈ a then a else a ++ [f]) acc
      else acc)
    []

/-- `Site.add_page`: drop the page when draft mode is off and its date is
strictly in the future; otherwise store it under `src_linkpath` and fire the
metadata-triggered feature hooks. -/
def addPage (s : SiteState) (page : PageV) : SiteState :=
  let reject : Bool :=
    !s.draftMode &&
      (match page.date with
       | some ts => decide (s.generationTime < ts)
       | none => false)
  if reject then s
  else
    let fired := triggerFeatures s.metadataHooks page.metaKeys
    { s with
        pages := pySet s.pages page.srcLinkpath page,
        hookCalls := s.hookCalls ++ fired.map (fun f => (f, page)) }

/-- `Page.draft`: true exactly when the page's date is strictly in the future. -/
def pageDraft (page : PageV) (generationTime : Int) : Bool :=
  match page.date with
  | none => false
  | some ts => if ts ≤ generationTime then false else true

theorem addPage_not_rejected (s : SiteState) (page : PageV)
    (h : s.draftMode = true ∨ pageDraft page s.generationTime = false) :
    addPage s page =
      { s with
          pages := pySet s.pages page.srcLinkpath page,
          hookCalls := s.hookCalls ++
            (triggerFeatures s.metadataHooks page.metaKeys).map (fun f => (f, page)) } := by
  unfold addPage
  rcases h with h | h
  · simp [h]
  · cases hd : page.date with
    | none => simp [hd]
    | some ts =>
        simp only [pageDraft, hd] at h
        by_cases hle : ts ≤ s.generationTime
        · have : ¬ s.generationTime < ts := not_lt.mpr hle
          simp [hd, this]
        · simp [hd, if_neg hle] at h

/-- C5: a page whose date is strictly in the future is dropped whole by
`add_page` when draft mode is off — the site state (registry and hook
trace) is unchanged — and is stored in the registry when draft mode is on. -/
theorem claim_C5_draft_filtering (s : SiteState) (page : PageV) (ts : Int)
    (hdate : page.date = some ts) (hfut : s.generationTime < ts) :
    (s.draftMode = false → addPage s page = s)
    ∧ (s.draftMode = true →
        pyGet (addPage s page).pages page.srcLinkpath = some page) := by
  constructor
  · intro hdm
    unfold addPage
    simp [hdm, hdate, hfut]
  · intro hdm
    rw [addPage_not_rejected s page (Or.inl hdm)]
    simp [pyGet_pySet]

theorem claim_C5_draft_filtering_witness :
    let page : PageV := ⟨"a.md", "a", "a", some 5, []⟩
    (addPage ⟨false, 0, [], [], []⟩ page = ⟨false, 0, [], [], []⟩)
    ∧ pyGet (addPage ⟨true, 0, [], [], []⟩ page).pages "a" = some page := by
  refine ⟨?_, ?_⟩
  · exact (claim_C5_draft_filtering ⟨false, 0, [], [], []⟩ ⟨"a.md", "a", "a", some 5, []⟩ 5
      rfl (by decide)).1 rfl
  · exact (claim_C5_draft_filtering ⟨true, 0, [], [], []⟩ ⟨"a.md", "a", "a", some 5, []⟩ 5
      rfl (by decide)).2 rfl

/-- C10: the draft test uses strict inequality against the generation time:
`draft` is true exactly when the date is present and strictly in the future,
and a page with no date or with a date equal to the generation time is never
a draft and is stored by `add_page` whatever the draft-mode setting. -/
theorem claim_C10_draft_boundary_strict (s : SiteState) (page : PageV) :
    (pageDraft page s.generationTime = true
      ↔ ∃ ts, page.date = some ts ∧ s.generationTime < ts)
    ∧ ((page.date = none ∨ page.date = some s.generationTime) →
        pageDraft page s.generationTime = false
        ∧ pyGet (addPage s page).pages page.srcLinkpath = some page) := by
  constructor
  · cases hd : page.date with
    | none => simp [pageDraft, hd]
    | some ts =>
        simp only [pageDraft, hd]
        by_cases hle : ts ≤ s.generationTime
        · simp [hle, not_lt.mpr hle]
        · simp only [if_neg hle]
          constructor
          · intro _
            exact ⟨ts, rfl, lt_of_not_ge hle⟩
          · intro _
            trivial
  · intro h
    have hdraft : pageDraft page s.generationTime = false := by
      rcases h with h | h
      · simp [pageDraft, h]
      · simp [pageDraft, h]
    refine ⟨hdraft, ?_⟩
    rw [addPage_not_rejected s page (Or.inr hdraft)]
    simp [pyGet_pySet]

theorem claim_C10_draft_boundary_strict_witness :
    let page : PageV := ⟨"a.md", "a", "a", some 7, []⟩
    pageDraft page 7 = false
    ∧ pyGet (addPage ⟨false, 7, [], [], []⟩ page).pages "a" = some page :=
  (claim_C10_draft_boundary_strict ⟨false, 7, [], [], []⟩
    ⟨"a.md", "a", "a", some 7, []⟩).2 (Or.inr rfl)

/-- C1 fails on the code: `Site.add_page` stores unconditionally with
`self.pages[page.src_linkpath] = page`, so the second of two pages sharing
the same path silently overwrites the first, and the registry answers the
lookup with the second page, not the first. -/
theorem claim_C1_counterexample :
    pyGet (addPage (addPage ⟨false, 0, [], [], []⟩
        ⟨"a.md", "blog/x", "blog/x", none, []⟩)
        ⟨"b.md", "blog/x", "blog/x", none, []⟩).pages "blog/x"
      = some ⟨"b.md", "blog/x", "blog/x", none, []⟩
    ∧ (⟨"b.md", "blog/x", "blog/x", none, []⟩ : PageV)
        ≠ ⟨"a.md", "blog/x", "blog/x", none, []⟩ := by
  decide

/-- C1 amended: the registry is last-registered-wins — after adding `p1` and
then `p2` with the same path key, the lookup for that key answers `p2`
(the second addition silently overwrites the first). -/
theorem claim_C1_last_registered_wins (s : SiteState) (p1 p2 : PageV)
    (hkey : p1.srcLinkpath = p2.srcLinkpath)
    (h2 : s.draftMode = true ∨ pageDraft p2 s.generationTime = false) :
    pyGet (addPage (addPage s p1) p2).pages p1.srcLinkpath = some p2 := by
  have h2' : (addPage s p1).draftMode = true
      ∨ pageDraft p2 (addPage s p1).generationTime = false := by
    unfold addPage
    rcases h2 with h | h
    · left
      dsimp only
      split <;> simp [h]
    · right
      dsimp only
      split <;> simpa using h
  rw [addPage_not_rejected (addPage s p1) p2 h2']
  simp [pyGet_pySet, hkey]

theorem claim_C1_last_registered_wins_witness :
    pyGet (addPage (addPage ⟨false, 0, [], [], []⟩
        ⟨"a.md", "blog/x", "blog/x", none, []⟩)
        ⟨"b.md", "blog/x", "blog/x", none, []⟩).pages "blog/x"
      = some ⟨"b.md", "blog/x", "blog/x", none, []⟩ :=
  claim_C1_last_registered_wins ⟨false, 0, [], [], []⟩
    ⟨"a.md", "blog/x", "blog/x", none, []⟩
    ⟨"b.md", "blog/x", "blog/x", none, []⟩ rfl (Or.inr rfl)

/-! ## Graceful URL rewriting (`page.py`, `Page.resolve_url`)

`Page.resolve_url` splits the URL with `urlparse`; URLs are modelled
directly by the six components of the parse result.  The composition of
`self.url_for` with the `urlparse` of its result is a parameter
`urlFor`; `none` models `url_for` raising `PageNotFoundError`, which
`resolve_url` catches (logging a warning) — it never propagates.
-/

/-- The six components of `urlparse`. -/
structure ParsedUrl where
  scheme : String
  netloc : String
  path : String
  params : String
  query : String
  fragment : String
deriving DecidableEq, Repr

/-- `Page.resolve_url`: pass through non-relative or empty-path URLs; on
resolution failure keep the original; otherwise take scheme, host and path
from the destination and params, query, fragment from the original. -/
def resolveUrl (urlFor : String → Option ParsedUrl) (url : ParsedUrl) : ParsedUrl :=
  if url.scheme ≠ "" ∨ url.netloc ≠ "" then url
  else if url.path = "" then url
  else
    match urlFor url.path with
    | none => url
    | some dest =>
        ⟨dest.scheme, dest.netloc, dest.path, url.params, url.query, url.fragment⟩

/-- C8: `resolve_url` returns the input unchanged on URLs with a scheme, a
network location or an empty path, and also on resolution failure (only a
warning is surfaced — the function is total, never raising); on success the
rewritten URL keeps the original's params, query and fragment and takes
scheme, host and path from the resolved destination. -/
theorem claim_C8_graceful_url_rewriting (urlFor : String → Option ParsedUrl)
    (url : ParsedUrl) :
    ((url.scheme ≠ "" ∨ url.netloc ≠ "" ∨ url.path = "") → resolveUrl urlFor url = url)
    ∧ (urlFor url.path = none → resolveUrl urlFor url = url)
    ∧ (∀ dest, url.scheme = "" → url.netloc = "" → url.path ≠ "" →
        urlFor url.path = some dest →
        resolveUrl urlFor url =
          ⟨dest.scheme, dest.netloc, dest.path, url.params, url.query, url.fragment⟩) := by
  refine ⟨?_, ?_, ?_⟩
  · intro h
    unfold resolveUrl
    rcases h with h | h | h
    · rw [if_pos (Or.inl h)]
    · rw [if_pos (Or.inr h)]
    · by_cases hnr : url.scheme ≠ "" ∨ url.netloc ≠ ""
      · rw [if_pos hnr]
      · rw [if_neg hnr, if_pos h]
  · intro h
    unfold resolveUrl
    by_cases hnr : url.scheme ≠ "" ∨ url.netloc ≠ ""
    · rw [if_pos hnr]
    · rw [if_neg hnr]
      by_cases hp : url.path = ""
      · rw [if_pos hp]
      · rw [if_neg hp, h]
  · intro dest hs hn hp hres
    unfold resolveUrl
    have hnr : ¬ (url.scheme ≠ "" ∨ url.netloc ≠ "") := by
      simp [hs, hn]
    rw [if_neg hnr, if_neg hp, hres]

theorem claim_C8_graceful_url_rewriting_witness :
    (resolveUrl (fun _ => none) ⟨"https", "x.org", "a", "", "", ""⟩
        = ⟨"https", "x.org", "a", "", "", ""⟩)
    ∧ (resolveUrl (fun _ => none) ⟨"", "", "missing", "", "q=1", "top"⟩
        = ⟨"", "", "missing", "", "q=1", "top"⟩)
    ∧ (resolveUrl (fun _ => some ⟨"", "", "/a/sibling", "", "", ""⟩)
        ⟨"", "", "sibling", "", "q=1", "top"⟩
        = ⟨"", "", "/a/sibling", "", "q=1", "top"⟩) :=
  ⟨(claim_C8_graceful_url_rewriting (fun _ => none)
      ⟨"https", "x.org", "a", "", "", ""⟩).1 (Or.inl (by decide)),
   (claim_C8_graceful_url_rewriting (fun _ => none)
      ⟨"", "", "missing", "", "q=1", "top"⟩).2.1 rfl,
   (claim_C8_graceful_url_rewriting (fun _ => some ⟨"", "", "/a/sibling", "", "", ""⟩)
      ⟨"", "", "sibling", "", "q=1", "top"⟩).2.2
      ⟨"", "", "/a/sibling", "", "", ""⟩ rfl rfl (by decide) rfl⟩

/-! ## Incremental render cache (`features/markdown.py`, `MarkdownPages.render_page`)

The cache (`site.caches.get("markdown")`) maps a page's source path to
`{mtime, rendered, paths}`.  The link resolver used during both the cache
check and rendering is modelled as a function from the raw reference to
`Option String` (`none` when the URL needs no change, matching
`LinkResolver.resolve_url`).  The markdown conversion is external: the
freshly rendered output and the link substitutions it would record are
parameters.
-/

/-- One value of the markdown render cache. -/
structure CacheEntry where
  /-- `page.src.stat.st_mtime` at the time of caching -/
  mtime : Int
  /-- the cached rendered markdown -/
  rendered : String
  /-- `link_resolver.substituted.items()`: (rawRef, resolvedURL) pairs -/
  paths : List (String × String)
deriving DecidableEq, Repr

/-- The outcome of `MarkdownPages.render_page`: the returned output, the
cache afterwards, and whether `markdown.convert` ran. -/
structure RenderResult where
  output : String
  cache : List (String × CacheEntry)
  converted : Bool
deriving DecidableEq, Repr

/-- The cache-acceptance cascade of `MarkdownPages.render_page`: the
`cached` value left after the guards `cached["mtime"] != ...` and the
per-pair link re-resolution check have run. -/
def acceptedEntry (cache : List (String × CacheEntry)) (resolver : String → Option String)
    (srcRelpath : String) (srcMtime : Int) : Option CacheEntry :=
  match pyGet cache srcRelpath with
  | none => none
  | some c =>
      if c.mtime ≠ srcMtime then none
      else if c.paths.all (fun sd => resolver sd.1 == some sd.2) then some c
      else none

/-- `MarkdownPages.render_page`: accept the cached entry only if its mtime
matches the source file's and every recorded (rawRef, resolvedURL) pair
still resolves to the same URL; otherwise convert afresh and overwrite the
cache entry for the page's source path. -/
def renderPage (cache : List (String × CacheEntry)) (resolver : String → Option String)
    (srcRelpath : String) (srcMtime : Int) (freshRendered : String)
    (freshPaths : List (String × String)) : RenderResult :=
  match acceptedEntry cache resolver srcRelpath srcMtime with
  | some c => ⟨c.rendered, cache, false⟩
  | none =>
      ⟨freshRendered,
       pySet cache srcRelpath ⟨srcMtime, freshRendered, freshPaths⟩,
       true⟩

theorem all_resolve_iff (resolver : String → Option String)
    (paths : List (String × String)) :
    (paths.all fun sd => resolver sd.1 == some sd.2) = true
      ↔ ∀ sd ∈ paths, resolver sd.1 = some sd.2 := by
  rw [List.all_eq_true]
  constructor
  · intro h sd hsd
    exact eq_of_beq (h sd hsd)
  · intro h sd hsd
    exact beq_iff_eq.mpr (h sd hsd)

theorem acceptedEntry_eq_some (cache : List (String × CacheEntry))
    (resolver : String → Option String) (srcRelpath : String) (srcMtime : Int)
    (c : CacheEntry) :
    acceptedEntry cache resolver srcRelpath srcMtime = some c
      ↔ pyGet cache srcRelpath = some c ∧ c.mtime = srcMtime
          ∧ ∀ sd ∈ c.paths, resolver sd.1 = some sd.2 := by
  unfold acceptedEntry
  split
  next h0 =>
      rw [h0]
      simp
  next c' h0 =>
      rw [h0]
      by_cases hm : c'.mtime = srcMtime
      · rw [if_neg (by simp [hm])]
        by_cases hp : (c'.paths.all fun sd => resolver sd.1 == some sd.2) = true
        · rw [if_pos hp]
          constructor
          · intro h
            cases h
            exact ⟨rfl, hm, (all_resolve_iff resolver _).mp hp⟩
          · rintro ⟨h, _, _⟩
            exact h
        · rw [if_neg hp]
          constructor
          · intro h
            cases h
          · rintro ⟨h, _, hall⟩
            cases h
            exact absurd ((all_resolve_iff resolver c.paths).mpr hall) hp
      · rw [if_pos (by simp [hm])]
        constructor
        · intro h
          cases h
        · rintro ⟨h, hm', _⟩
          cases h
          exact absurd hm' hm

/-- C2: `render_page` returns the cached output without converting iff a
cache entry exists for the source path, its stored mtime equals the current
one, and every stored (rawRef, resolvedURL) pair still resolves to the same
URL; on a hit the cache is untouched and the output is the stored one, on
any mismatch the page is fully re-rendered and the entry overwritten. -/
theorem claim_C2_render_cache_acceptance (cache : List (String × CacheEntry))
    (resolver : String → Option String) (srcRelpath : String) (srcMtime : Int)
    (freshRendered : String) (freshPaths : List (String × String)) :
    ((renderPage cache resolver srcRelpath srcMtime freshRendered freshPaths).converted = false
      ↔ ∃ c, pyGet cache srcRelpath = some c ∧ c.mtime = srcMtime
          ∧ ∀ sd ∈ c.paths, resolver sd.1 = some sd.2)
    ∧ ((renderPage cache resolver srcRelpath srcMtime freshRendered freshPaths).converted = false →
        (renderPage cache resolver srcRelpath srcMtime freshRendered freshPaths).cache = cache
        ∧ ∃ c, pyGet cache srcRelpath = some c
            ∧ (renderPage cache resolver srcRelpath srcMtime freshRendered freshPaths).output
                = c.rendered)
    ∧ ((renderPage cache resolver srcRelpath srcMtime freshRendered freshPaths).converted = true →
        (renderPage cache resolver srcRelpath srcMtime freshRendered freshPaths).output
            = freshRendered
        ∧ pyGet (renderPage cache resolver srcRelpath srcMtime freshRendered freshPaths).cache
            srcRelpath = some ⟨srcMtime, freshRendered, freshPaths⟩) := by
  unfold renderPage
  cases hacc : acceptedEntry cache resolver srcRelpath srcMtime with
  | some c =>
      have hc := (acceptedEntry_eq_some cache resolver srcRelpath srcMtime c).mp hacc
      refine ⟨?_, ?_, ?_⟩
      · exact iff_of_true rfl ⟨c, hc⟩
      · intro _
        exact ⟨rfl, c, hc.1, rfl⟩
      · intro hfalse
        cases hfalse
  | none =>
      refine ⟨?_, ?_, ?_⟩
      · constructor
        · intro hfalse
          cases hfalse
        · rintro ⟨c, hc⟩
          have := (acceptedEntry_eq_some cache resolver srcRelpath srcMtime c).mpr hc
          rw [hacc] at this
          cases this
      · intro hfalse
        cases hfalse
      · intro _
        exact ⟨rfl, by simp [pyGet_pySet]⟩

theorem claim_C2_render_cache_acceptance_witness :
    (renderPage [("a.md", ⟨3, "out", [("s", "/a/s")]⟩)]
        (fun r => if r = "s" then some "/a/s" else none) "a.md" 3 "fresh" []).converted
      = false :=
  (claim_C2_render_cache_acceptance [("a.md", ⟨3, "out", [("s", "/a/s")]⟩)]
      (fun r => if r = "s" then some "/a/s" else none) "a.md" 3 "fresh" []).1.mpr
    ⟨⟨3, "out", [("s", "/a/s")]⟩, rfl, rfl, by decide⟩

/-! ## Series sequencing (`features/taxonomy.py`, `CategoryPage.sequence`)

A category page holds `meta["pages"]`, the members of the category sorted
by date ascending by `TaxonomyPage.finalize`, and `page_index`, a dict
from member site path to enumeration index.  `sequence(page)` computes
the series navigation record.
-/

/-- The slice of a member page that `CategoryPage.sequence` consults. -/
structure SPage where
  /-- `page.site_path` -/
  sitePath : String
  /-- `page.meta["title"]` -/
  title : String
  /-- `page.meta.get("series_title")` -/
  seriesTitle : Option String
  /-- `page.meta["date"]`, as a timestamp -/
  date : Int
deriving DecidableEq, Repr

/-- `CategoryPage.page_index`: `{page.site_path: idx for idx, page in enumerate(meta["pages"])}`. -/
def pageIndex (pages : List SPage) : List (String × Nat) :=
  pages.enum.foldl (fun acc ip => pySet acc ip.2.sitePath ip.1) []

/-- The `series_title` carry-forward loop of `sequence`: update with each
page's `series_title` when set, stop after the requested page. -/
def seriesTitleScan (pages : List SPage) (page : SPage) (cur : String) : String :=
  match pages with
  | [] => cur
  | p :: rest =>
      let cur' := match p.seriesTitle with
        | some t => t
        | none => cur
      if p = page then cur' else seriesTitleScan rest page cur'

/-- The record returned by `CategoryPage.sequence`.  `first`, `last`,
`prev` and `next` are `Option`-valued: `none` models Python's `None`
(and the unreachable indexing of an empty member list). -/
structure SeqInfo where
  pages : List SPage
  index : Nat
  length : Nat
  first : Option SPage
  last : Option SPage
  prev : Option SPage
  next : Option SPage
  title : String
deriving DecidableEq, Repr

/-- `CategoryPage.sequence`: `none` when the page's site path is not in
`page_index`, else the navigation record built from the stored index. -/
def sequence (pages : List SPage) (page : SPage) : Option SeqInfo :=
  match pyGet (pageIndex pages) page.sitePath with
  | none => none
  | some idx =>
      let seriesTitle := seriesTitleScan pages page
        (match pages.head? with
         | some p0 => p0.title
         | none => "")
      some
        { pages := pages,
          index := idx + 1,
          length := pages.length,
          first := pages.head?,
          last := pages.getLast?,
          prev := if 0 < idx then pages[idx - 1]? else none,
          next := if idx < pages.length - 1 then pages[idx + 1]? else none,
          title := seriesTitle }

/-- The series title the specification describes for the member at
position `i`: the most recent `series_title` override seen scanning the
ordered list up to and including that member, defaulting to `d`. -/
def carriedTitle (prefixPages : List SPage) (d : String) : String :=
  match (prefixPages.filterMap (fun p => p.seriesTitle)).getLast? with
  | some t => t
  | none => d

theorem carriedTitle_cons (p : SPage) (l : List SPage) (d : String) :
    carriedTitle (p :: l) d
      = carriedTitle l (match p.seriesTitle with | some t => t | none => d) := by
  unfold carriedTitle
  cases hst : p.seriesTitle with
  | none => simp [List.filterMap_cons, hst]
  | some t =>
      simp only [List.filterMap_cons, hst]
      cases hl : (l.filterMap (fun p => p.seriesTitle)) with
      | nil => simp
      | cons t' rest =>
          rw [List.getLast?_cons_cons]
          cases hgl : (t' :: rest).getLast? with
          | none =>
              have := List.getLast?_eq_none_iff.mp hgl
              cases this
          | some x => simp

theorem seriesTitleScan_eq_carriedTitle (pages : List SPage) (page : SPage)
    (i : Nat) (d : String)
    (hbefore : ∀ j, j < i → ∀ q, pages[j]? = some q → q ≠ page)
    (hi : pages[i]? = some page) :
    seriesTitleScan pages page d = carriedTitle (pages.take (i + 1)) d := by
  induction pages generalizing i d with
  | nil => simp at hi
  | cons p rest ih =>
      cases i with
      | zero =>
          simp only [List.getElem?_cons_zero, Option.some.injEq] at hi
          subst hi
          unfold seriesTitleScan
          simp only [if_pos rfl, List.take_succ_cons, List.take_zero]
          rw [carriedTitle_cons]
          cases hst : p.seriesTitle <;> simp [carriedTitle, hst]
      | succ j =>
          have hne : p ≠ page := by
            have := hbefore 0 (Nat.succ_pos j) p (by simp)
            exact this
          simp only [List.getElem?_cons_succ] at hi
          unfold seriesTitleScan
          rw [if_neg hne, List.take_succ_cons, carriedTitle_cons]
          exact ih j _ (fun j' hj' q hq => hbefore (j' + 1) (Nat.succ_lt_succ hj') q (by simpa using hq)) hi

/-- The last binding left in the enumeration fold of `page_index`, starting
the enumeration at `n`. -/
theorem pageIndex_lookup_aux (rest : List SPage) (k : String) (n : Nat)
    (habsent : ∀ q ∈ rest, q.sitePath ≠ k) :
    lastBinding ((List.enumFrom n rest).map (fun ip => (ip.2.sitePath, ip.1))) k = none := by
  induction rest generalizing n with
  | nil => rfl
  | cons p rest ih =>
      simp only [List.enumFrom_cons, List.map_cons]
      rw [show (p :: rest : List SPage) = [p] ++ rest from rfl] at habsent
      have h1 : p.sitePath ≠ k := habsent p (by simp)
      have h2 : ∀ q ∈ rest, q.sitePath ≠ k := fun q hq => habsent q (by simp [hq])
      rw [show ((n, p).2.sitePath, (n, p).1) :: (List.enumFrom (n + 1) rest).map
            (fun ip => (ip.2.sitePath, ip.1))
          = [((n, p).2.sitePath, (n, p).1)] ++ (List.enumFrom (n + 1) rest).map
            (fun ip => (ip.2.sitePath, ip.1)) from rfl]
      rw [lastBinding_append, ih (n + 1) h2, orFallback_none]
      simp [lastBinding, h1]

theorem pageIndex_lastBinding (pages : List SPage) (page : SPage) (i : Nat) (n : Nat)
    (hnodup : (pages.map (fun p => p.sitePath)).Nodup)
    (hi : pages[i]? = some page) :
    lastBinding ((List.enumFrom n pages).map (fun ip => (ip.2.sitePath, ip.1)))
        page.sitePath = some (n + i) := by
  induction pages generalizing n i with
  | nil => simp at hi
  | cons p rest ih =>
      simp only [List.map_cons, List.nodup_cons] at hnodup
      obtain ⟨hnotin, hnodup'⟩ := hnodup
      simp only [List.enumFrom_cons, List.map_cons]
      rw [show ((n, p).2.sitePath, (n, p).1) :: (List.enumFrom (n + 1) rest).map
            (fun ip => (ip.2.sitePath, ip.1))
          = [((n, p).2.sitePath, (n, p).1)] ++ (List.enumFrom (n + 1) rest).map
            (fun ip => (ip.2.sitePath, ip.1)) from rfl]
      rw [lastBinding_append]
      cases i with
      | zero =>
          have hi0 : p = page := by simpa using hi
          have habsent : ∀ q ∈ rest, q.sitePath ≠ page.sitePath := by
            intro q hq heq
            apply hnotin
            have hqmem : q.sitePath ∈ List.map (fun p => p.sitePath) rest :=
              List.mem_map_of_mem (fun p => p.sitePath) hq
            rw [heq, ← hi0] at hqmem
            exact hqmem
          rw [pageIndex_lookup_aux rest page.sitePath (n + 1) habsent, orFallback_none]
          simp [lastBinding, hi0]
      | succ j =>
          simp only [List.getElem?_cons_succ] at hi
          have hmem : page ∈ rest := List.getElem?_mem hi
          have hne : p.sitePath ≠ page.sitePath := by
            intro heq
            exact hnotin (heq ▸ List.mem_map_of_mem (fun p => p.sitePath) hmem)
          rw [ih j (n + 1) hnodup' hi]
          simp only [orFallback_some, lastBinding]
          have : n + 1 + j = n + (j + 1) := by omega
          rw [this]

theorem pageIndex_lookup (pages : List SPage) (page : SPage) (i : Nat)
    (hnodup : (pages.map (fun p => p.sitePath)).Nodup)
    (hi : pages[i]? = some page) :
    pyGet (pageIndex pages) page.sitePath = some i := by
  have hfold : pageIndex pages
      = pyUpdate [] (pages.enum.map (fun ip => (ip.2.sitePath, ip.1))) := by
    unfold pageIndex pyUpdate
    rw [List.foldl_map]
  rw [hfold, pyGet_pyUpdate]
  have : pages.enum = List.enumFrom 0 pages := rfl
  rw [this, pageIndex_lastBinding pages page i 0 hnodup hi]
  simp [orFallback]

/-- C6: for a category whose ordered member list has pairwise-distinct site
paths, `sequence` applied to the member at zero-based position `i` yields
index `i + 1`, length the member count, first and last the first and last
members, prev the member at `i - 1` (absent when `i = 0`), next the member
at `i + 1` (absent when `i` is last), and a series title equal to the most
recent `series_title` override seen scanning the ordered list up to and
including that member, defaulting to the first member's title. -/
theorem claim_C6_series_sequencing (pages : List SPage) (page : SPage) (i : Nat)
    (hnodup : (pages.map (fun p => p.sitePath)).Nodup)
    (hi : pages[i]? = some page) :
    sequence pages page = some
      { pages := pages,
        index := i + 1,
        length := pages.length,
        first := pages[0]?,
        last := pages[pages.length - 1]?,
        prev := if 0 < i then pages[i - 1]? else none,
        next := if i < pages.length - 1 then pages[i + 1]? else none,
        title := carriedTitle (pages.take (i + 1))
          (match pages[0]? with
           | some p0 => p0.title
           | none => "") } := by
  have hbefore : ∀ j, j < i → ∀ q, pages[j]? = some q → q ≠ page := by
    intro j hj q hq hqe
    subst hqe
    have hmapj : (pages.map (fun p => p.sitePath))[j]? = some q.sitePath := by
      rw [List.getElem?_map, hq]
      rfl
    have hmapi : (pages.map (fun p => p.sitePath))[i]? = some q.sitePath := by
      rw [List.getElem?_map, hi]
      rfl
    have hjlen : j < (pages.map (fun p => p.sitePath)).length := by
      rw [List.length_map]
      exact (List.getElem?_eq_some.mp hq).1
    have hji := List.getElem?_inj hjlen hnodup (hmapj.trans hmapi.symm)
    exact absurd hji (Nat.ne_of_lt hj)
  have hidx := pageIndex_lookup pages page i hnodup hi
  unfold sequence
  rw [hidx]
  rw [seriesTitleScan_eq_carriedTitle pages page i _ hbefore hi]
  rw [List.head?_eq_getElem?, List.getLast?_eq_getElem?]

theorem claim_C6_series_sequencing_witness :
    sequence
      [⟨"s/p1", "T1", none, 1⟩, ⟨"s/p2", "T2", none, 2⟩, ⟨"s/p3", "T3", none, 3⟩]
      ⟨"s/p2", "T2", none, 2⟩
    = some
      { pages := [⟨"s/p1", "T1", none, 1⟩, ⟨"s/p2", "T2", none, 2⟩, ⟨"s/p3", "T3", none, 3⟩],
        index := 2,
        length := 3,
        first := some ⟨"s/p1", "T1", none, 1⟩,
        last := some ⟨"s/p3", "T3", none, 3⟩,
        prev := some ⟨"s/p1", "T1", none, 1⟩,
        next := some ⟨"s/p3", "T3", none, 3⟩,
        title := "T1" } := by
  rw [claim_C6_series_sequencing
    [⟨"s/p1", "T1", none, 1⟩, ⟨"s/p2", "T2", none, 2⟩, ⟨"s/p3", "T3", none, 3⟩]
    ⟨"s/p2", "T2", none, 2⟩ 1 (by decide) (by decide)]
  decide

/-! ## Link resolution search order (`page.py`, `Page.resolve_path`)

Relative filesystem paths are modelled as lists of components (`"a/b"` is
`["a", "b"]`, `""` is `[]`).  `os.path.dirname` is `dropLast`;
`os.path.normpath` of a joined relative path drops `"."` and empty
components and resolves `".."` against the preceding component, keeping
leading `".."`s; the code's mapping of a `"."` result to `""` is the
empty component list.  Pages in the two site indexes are identified by
an opaque page id.
-/

/-- `os.path.normpath` on joined relative-path components. -/
def normComps (cs : List String) : List String :=
  cs.foldl
    (fun acc c =>
      if c = "" ∨ c = "." then acc
      else if c = ".." then
        if acc ≠ [] ∧ acc.getLast? ≠ some ".." then acc.dropLast else acc ++ [".."]
      else acc ++ [c])
    []

/-- The target string of `resolve_path`: whether it starts with `/`, and
its components with leading slashes stripped. -/
structure Target where
  absolute : Bool
  comps : List String

/-- The slice of a `Page` that `resolve_path` consults: the source path of
its backing file, if any, and its `meta["site_path"]`. -/
structure RPage where
  src : Option (List String)
  sitePath : List String

/-- The two page indexes `resolve_path` probes: `site.pages_by_src_relpath`
and `site.pages` (the site-path index). -/
structure SiteIndexes where
  pagesBySrcRelpath : List String → Option String
  pages : List String → Option String

/-- One upward walk of `resolve_path`: probe the index at
`normpath(join(root, target))`, and on failure stop if `root` is empty,
else retry at `dirname(root)`. -/
def walkUp (index : List String → Option String) (root target : List String) :
    Option String :=
  match index (normComps (root ++ target)) with
  | some p => some p
  | none => if h : root = [] then none else walkUp index root.dropLast target
termination_by root.length
decreasing_by
  simp only [List.length_dropLast]
  have := List.length_pos.mpr h
  omega

/-- `Page.resolve_path`, with `none` modelling `PageNotFoundError`. -/
def resolvePath (idx : SiteIndexes) (page : RPage) (target : Target) : Option String :=
  if target.absolute then
    let rel := normComps target.comps
    match idx.pagesBySrcRelpath rel with
    | some p => some p
    | none =>
        match idx.pages rel with
        | some p => some p
        | none => idx.pagesBySrcRelpath ("static" :: rel)
  else
    let fromSrc :=
      match page.src with
      | some srcRel => walkUp idx.pagesBySrcRelpath srcRel.dropLast target.comps
      | none => none
    match fromSrc with
    | some p => some p
    | none => walkUp idx.pages page.sitePath target.comps

/-- The first successful probe of a list, in order. -/
def firstSome : List (Option String) → Option String
  | [] => none
  | o :: rest =>
      match o with
      | some p => some p
      | none => firstSome rest

/-- A directory and its ancestors, closest first, down to the root `[]`. -/
def ancestorRoots (root : List String) : List (List String) :=
  if h : root = [] then [[]]
  else root :: ancestorRoots root.dropLast
termination_by root.length
decreasing_by
  simp only [List.length_dropLast]
  have := List.length_pos.mpr h
  omega

/-- The probe sequence stated by the specification: for an absolute target
the source-path index, the site-path index, then the `static/`-prefixed
source path; for a relative target the source-path index over the page's
source directory ancestry closest-first (when the page has a backing
file), then the site-path index over the page's site path ancestry. -/
def specProbes (idx : SiteIndexes) (page : RPage) (target : Target) :
    List (Option String) :=
  if target.absolute then
    let rel := normComps target.comps
    [idx.pagesBySrcRelpath rel, idx.pages rel, idx.pagesBySrcRelpath ("static" :: rel)]
  else
    (match page.src with
     | some srcRel => (ancestorRoots srcRel.dropLast).map
         (fun r => idx.pagesBySrcRelpath (normComps (r ++ target.comps)))
     | none => [])
    ++ (ancestorRoots page.sitePath).map
         (fun r => idx.pages (normComps (r ++ target.comps)))

theorem firstSome_append (l₁ l₂ : List (Option String)) :
    firstSome (l₁ ++ l₂)
      = match firstSome l₁ with
        | some p => some p
        | none => firstSome l₂ := by
  induction l₁ with
  | nil => simp [firstSome]
  | cons o rest ih =>
      cases o with
      | some p => simp [firstSome]
      | none => simp [firstSome, ih]

theorem firstSome_eq_none_iff (l : List (Option String)) :
    firstSome l = none ↔ ∀ o ∈ l, o = none := by
  induction l with
  | nil => simp [firstSome]
  | cons o rest ih =>
      cases o with
      | some p => simp [firstSome]
      | none => simp [firstSome, ih]

theorem walkUp_eq_firstSome (index : List String → Option String)
    (root target : List String) :
    walkUp index root target
      = firstSome ((ancestorRoots root).map
          (fun r => index (normComps (r ++ target)))) := by
  induction root using List.reverseRecOn with
  | nil =>
      rw [walkUp, ancestorRoots]
      simp only [dif_pos rfl, List.map_cons, List.map_nil, List.nil_append]
      cases h : index (normComps target) <;> simp [firstSome, h]
  | append_singleton xs x ih =>
      rw [walkUp, ancestorRoots]
      have hne : xs ++ [x] ≠ [] := by simp
      simp only [dif_neg hne, List.dropLast_concat, List.map_cons]
      cases index (normComps ((xs ++ [x]) ++ target)) <;> simp [firstSome, ih]

/-- C4: `resolve_path` follows exactly the specified probe order — for an
absolute target the source-path index, the site-path index, then the
`static/`-prefixed source path; for a relative target the closest-first
upward walk over the source directory ancestry against the source-path
index (when the page has a backing file) and then over the site path
ancestry against the site-path index — returning the first hit, and
failing (`PageNotFoundError`) exactly when every probe fails. -/
theorem claim_C4_link_resolution_search_order (idx : SiteIndexes) (page : RPage)
    (target : Target) :
    resolvePath idx page target = firstSome (specProbes idx page target)
    ∧ (resolvePath idx page target = none ↔
        ∀ o ∈ specProbes idx page target, o = none) := by
  have heq : resolvePath idx page target = firstSome (specProbes idx page target) := by
    unfold resolvePath specProbes
    by_cases habs : target.absolute = true
    · simp only [if_pos habs]
      cases idx.pagesBySrcRelpath (normComps target.comps) with
      | some p => simp [firstSome]
      | none =>
          cases idx.pages (normComps target.comps) with
          | some p => simp [firstSome]
          | none =>
              cases idx.pagesBySrcRelpath ("static" :: normComps target.comps) <;>
                simp [firstSome]
    · simp only [if_neg habs]
      cases hsrc : page.src with
      | none =>
          simp only [List.nil_append]
          exact walkUp_eq_firstSome idx.pages page.sitePath target.comps
      | some srcRel =>
          dsimp only
          rw [firstSome_append, walkUp_eq_firstSome idx.pagesBySrcRelpath
            srcRel.dropLast target.comps]
          cases firstSome ((ancestorRoots srcRel.dropLast).map
              (fun r => idx.pagesBySrcRelpath (normComps (r ++ target.comps)))) with
          | some p => rfl
          | none => exact walkUp_eq_firstSome idx.pages page.sitePath target.comps
  exact ⟨heq, by rw [heq]; exact firstSome_eq_none_iff _⟩

theorem claim_C4_link_resolution_search_order_witness :
    resolvePath
      ⟨fun p => if p = ["a", "sibling"] then some "a-sibling" else none,
       fun _ => none⟩
      ⟨some ["a", "b.md"], ["a", "b"]⟩
      ⟨false, ["sibling"]⟩ = some "a-sibling" := by
  rw [(claim_C4_link_resolution_search_order
    ⟨fun p => if p = ["a", "sibling"] then some "a-sibling" else none,
     fun _ => none⟩
    ⟨some ["a", "b.md"], ["a", "b"]⟩
    ⟨false, ["sibling"]⟩).1]
  simp [specProbes, ancestorRoots, firstSome, normComps]

/-! ## Feature scheduler (`feature.py`, `Features`)

`Features.commit` sorts the registered feature classes with
`Features._sort_features` and instantiates each class once in that order;
`ordered()` then returns the fixed sequence, reused by every hook phase
(`try_load_page`/`load_dir` during content loading and `finalize` in
`Site.analyze`).  `_sort_features` builds the dependency graph from
`RUN_AFTER`/`RUN_BEFORE`, skipping names that are not registered, and
hands it to `toposort.sort`.  A feature class is its assigned `NAME`
plus its two ordering lists.
-/

/-- A registered feature class: the `NAME` it was registered under and its
`RUN_BEFORE` / `RUN_AFTER` declarations. -/
structure FClass where
  name : String
  runBefore : List String
  runAfter : List String
deriving DecidableEq, Repr

/-- The edges `_sort_features` adds for one feature: `(dep, feature)` for
each registered `RUN_AFTER` name, then `(feature, dep)` for each registered
`RUN_BEFORE` name; unregistered names are logged and skipped. -/
def featureEdges (features : List FClass) (f : FClass)
    (acc : List (String × String)) : List (String × String) :=
  let acc1 := f.runAfter.foldl
    (fun a name =>
      if features.any (fun g => g.name == name) then a ++ [(name, f.name)] else a) acc
  f.runBefore.foldl
    (fun a name =>
      if features.any (fun g => g.name == name) then a ++ [(f.name, name)] else a) acc1

/-- The dependency graph of `_sort_features`, as the list of edges
`(A, B)` meaning "A must run before B". -/
def buildEdges (features : List FClass) : List (String × String) :=
  features.foldl (fun acc f => featureEdges features f acc) []

/-- Modelled from the spec: `toposort.sort` (module `staticsite/toposort.py`,
not present in the sources) performs a deterministic topological sort of the
dependency graph, failing on a cycle.  Kahn's algorithm: repeatedly emit the
first remaining node with no incoming edge from a remaining node. -/
def topoGo : Nat → List String → List (String × String) → Option (List String)
  | 0, nodes, _ => if nodes = [] then some [] else none
  | fuel + 1, nodes, edges =>
      match nodes with
      | [] => some []
      | _ :: _ =>
          match nodes.find?
              (fun n => !(edges.any (fun e => e.2 == n && nodes.contains e.1))) with
          | none => none
          | some x =>
              match topoGo fuel (nodes.erase x) edges with
              | none => none
              | some rest => some (x :: rest)

/-- Modelled from the spec: the deterministic topological sort, `none` on a
dependency cycle (a fatal configuration error). -/
def topoSort (nodes : List String) (edges : List (String × String)) :
    Option (List String) :=
  topoGo nodes.length nodes edges

/-- The loop of `Features.commit` that keeps only the first occurrence of
each name (`if cls.NAME in self.features: continue`). -/
def dedupKeep (l : List String) : List String :=
  l.foldl (fun acc n => if n ∈ acc then acc else acc ++ [n]) []

/-- `Features.commit`: topologically sort the registered classes and
instantiate each at most once, in order; the result is `self.sorted`,
which `ordered()` returns. -/
def commit (features : List FClass) : Option (List String) :=
  match topoSort (features.map (fun f => f.name)) (buildEdges features) with
  | none => none
  | some sorted => some (dedupKeep sorted)

/-- The sequence `ordered()` yields during the page-claiming phase
(`ContentDir.load` iterates `site.features.ordered()`). -/
def loadPhaseOrder (features : List FClass) : Option (List String) :=
  commit features

/-- The sequence `ordered()` yields during the finalize phase
(`Site.analyze` iterates `site.features.ordered()`). -/
def finalizePhaseOrder (features : List FClass) : Option (List String) :=
  commit features

theorem foldl_conditional_append {B : Type} (names : List String)
    (c : String → Bool) (g : String → B) (acc : List B) :
    names.foldl (fun a name => if c name then a ++ [g name] else a) acc
      = acc ++ names.filterMap (fun name => if c name then some (g name) else none) := by
  induction names generalizing acc with
  | nil => simp
  | cons n rest ih =>
      by_cases h : c n = true
      · simp [h, ih, List.filterMap_cons]
      · simp only [Bool.not_eq_true] at h
        simp [h, ih, List.filterMap_cons]

/-- The edges one feature contributes, in contribution order. -/
def featureEdgeList (features : List FClass) (f : FClass) : List (String × String) :=
  f.runAfter.filterMap
    (fun name =>
      if features.any (fun g => g.name == name) then some (name, f.name) else none)
  ++ f.runBefore.filterMap
    (fun name =>
      if features.any (fun g => g.name == name) then some (f.name, name) else none)

theorem featureEdges_eq (features : List FClass) (f : FClass)
    (acc : List (String × String)) :
    featureEdges features f acc = acc ++ featureEdgeList features f := by
  unfold featureEdges featureEdgeList
  rw [foldl_conditional_append, foldl_conditional_append, List.append_assoc]

theorem buildEdges_eq_flatten (features : List FClass) :
    buildEdges features
      = (features.map (featureEdgeList features)).flatten := by
  unfold buildEdges
  suffices h : ∀ (l : List FClass) (acc : List (String × String)),
      l.foldl (fun acc f => featureEdges features f acc) acc
        = acc ++ (l.map (featureEdgeList features)).flatten by
    simpa using h features []
  intro l
  induction l with
  | nil => simp
  | cons f rest ih =>
      intro acc
      simp only [List.foldl_cons, List.map_cons, List.flatten_cons]
      rw [featureEdges_eq, ih, List.append_assoc]

theorem mem_buildEdges_of_declared (features : List FClass) (A B : FClass)
    (hA : A ∈ features) (hB : B ∈ features)
    (hrel : B.name ∈ A.runBefore ∨ A.name ∈ B.runAfter) :
    (A.name, B.name) ∈ buildEdges features := by
  rw [buildEdges_eq_flatten]
  rcases hrel with h | h
  · refine List.mem_flatten.mpr
      ⟨featureEdgeList features A, List.mem_map_of_mem (featureEdgeList features) hA, ?_⟩
    unfold featureEdgeList
    refine List.mem_append.mpr (Or.inr ?_)
    refine List.mem_filterMap.mpr ⟨B.name, h, ?_⟩
    have hreg : features.any (fun g => g.name == B.name) = true :=
      List.any_eq_true.mpr ⟨B, hB, beq_iff_eq.mpr rfl⟩
    rw [if_pos hreg]
  · refine List.mem_flatten.mpr
      ⟨featureEdgeList features B, List.mem_map_of_mem (featureEdgeList features) hB, ?_⟩
    unfold featureEdgeList
    refine List.mem_append.mpr (Or.inl ?_)
    refine List.mem_filterMap.mpr ⟨A.name, h, ?_⟩
    have hreg : features.any (fun g => g.name == A.name) = true :=
      List.any_eq_true.mpr ⟨A, hA, beq_iff_eq.mpr rfl⟩
    rw [if_pos hreg]

theorem topoGo_mem (fuel : Nat) (nodes : List String) (edges : List (String × String))
    (out : List String) (hnodup : nodes.Nodup)
    (h : topoGo fuel nodes edges = some out) :
    ∀ n, n ∈ out ↔ n ∈ nodes := by
  induction fuel generalizing nodes out with
  | zero =>
      unfold topoGo at h
      by_cases hn : nodes = []
      · subst hn
        rw [if_pos rfl] at h
        cases h
        simp
      · rw [if_neg hn] at h
        cases h
  | succ fuel ih =>
      cases nodes with
      | nil =>
          unfold topoGo at h
          dsimp only at h
          cases h
          simp
      | cons n0 rest0 =>
          unfold topoGo at h
          dsimp only at h
          split at h
          · cases h
          next x hfind =>
              split at h
              · cases h
              next rest hrest =>
                  cases h
                  have hxmem : x ∈ n0 :: rest0 := List.mem_of_find?_eq_some hfind
                  have ihm := ih ((n0 :: rest0).erase x) rest (hnodup.erase x) hrest
                  intro n
                  rw [List.mem_cons, ihm n, hnodup.mem_erase_iff]
                  constructor
                  · rintro (rfl | ⟨_, hmem⟩)
                    · exact hxmem
                    · exact hmem
                  · intro hmem
                    by_cases hx : n = x
                    · exact Or.inl hx
                    · exact Or.inr ⟨hx, hmem⟩

theorem topoGo_nodup (fuel : Nat) (nodes : List String) (edges : List (String × String))
    (out : List String) (hnodup : nodes.Nodup)
    (h : topoGo fuel nodes edges = some out) :
    out.Nodup := by
  induction fuel generalizing nodes out with
  | zero =>
      unfold topoGo at h
      by_cases hn : nodes = []
      · subst hn
        rw [if_pos rfl] at h
        cases h
        exact List.nodup_nil
      · rw [if_neg hn] at h
        cases h
  | succ fuel ih =>
      cases nodes with
      | nil =>
          unfold topoGo at h
          dsimp only at h
          cases h
          exact List.nodup_nil
      | cons n0 rest0 =>
          unfold topoGo at h
          dsimp only at h
          split at h
          · cases h
          next x hfind =>
              split at h
              · cases h
              next rest hrest =>
                  cases h
                  have hrnodup := ih ((n0 :: rest0).erase x) rest (hnodup.erase x) hrest
                  have hxnot : x ∉ rest := by
                    intro hmem
                    have := (topoGo_mem fuel ((n0 :: rest0).erase x) edges rest
                      (hnodup.erase x) hrest x).mp hmem
                    exact ((hnodup.mem_erase_iff).mp this).1 rfl
                  exact List.nodup_cons.mpr ⟨hxnot, hrnodup⟩

theorem topoGo_sublist (fuel : Nat) (nodes : List String)
    (edges : List (String × String)) (out : List String) (u v : String)
    (hnodup : nodes.Nodup) (h : topoGo fuel nodes edges = some out)
    (hedge : (u, v) ∈ edges) (hu : u ∈ nodes) (hv : v ∈ nodes) :
    List.Sublist [u, v] out := by
  induction fuel generalizing nodes out with
  | zero =>
      unfold topoGo at h
      by_cases hn : nodes = []
      · subst hn
        cases hu
      · rw [if_neg hn] at h
        cases h
  | succ fuel ih =>
      cases nodes with
      | nil => cases hu
      | cons n0 rest0 =>
          unfold topoGo at h
          dsimp only at h
          split at h
          · cases h
          next x hfind =>
              split at h
              · cases h
              next rest hrest =>
                  cases h
                  have hpx := List.find?_some hfind
                  have hany : (edges.any
                      (fun e => e.2 == x && (n0 :: rest0).contains e.1)) = false := by
                    simpa using hpx
                  have hnoinc : ∀ e ∈ edges, ¬ (e.2 = x ∧ e.1 ∈ n0 :: rest0) := by
                    intro e he hcontra
                    have := List.any_eq_false.mp hany e he
                    simp [hcontra.1, hcontra.2] at this
                  have hvx : v ≠ x := by
                    intro hvx
                    exact hnoinc (u, v) hedge ⟨hvx, hu⟩
                  by_cases hux : u = x
                  · subst hux
                    have hvrest : v ∈ rest := by
                      have := (topoGo_mem fuel ((n0 :: rest0).erase u) edges rest
                        (hnodup.erase u) hrest v).mpr
                      exact this ((hnodup.mem_erase_iff).mpr ⟨hvx, hv⟩)
                    exact (List.singleton_sublist.mpr hvrest).cons₂ u
                  · have hue : u ∈ (n0 :: rest0).erase x :=
                      (hnodup.mem_erase_iff).mpr ⟨hux, hu⟩
                    have hve : v ∈ (n0 :: rest0).erase x :=
                      (hnodup.mem_erase_iff).mpr ⟨hvx, hv⟩
                    exact (ih ((n0 :: rest0).erase x) rest (hnodup.erase x)
                      hrest hue hve).cons x

theorem dedupKeep_eq_self (l : List String) (h : l.Nodup) : dedupKeep l = l := by
  unfold dedupKeep
  have haux : ∀ (m acc : List String), (acc ++ m).Nodup →
      m.foldl (fun acc n => if n ∈ acc then acc else acc ++ [n]) acc = acc ++ m := by
    intro m
    induction m with
    | nil =>
        intro acc _
        simp
    | cons n rest ih =>
        intro acc hacc
        have hnin : n ∉ acc := by
          intro hmem
          have hdisj := (List.nodup_append.mp hacc).2.2
          exact hdisj hmem (List.mem_cons_self n rest)
        simp only [List.foldl_cons, if_neg hnin]
        have heq : acc ++ n :: rest = (acc ++ [n]) ++ rest := by simp
        rw [heq] at hacc
        rw [ih (acc ++ [n]) hacc, heq]
  simpa using haux l [] (by simpa using h)

/-- C7: when registered feature A declares B in `RUN_BEFORE` (or B declares
A in `RUN_AFTER`), whatever the registration order, a successful `commit()`
yields an order placing A strictly before B, instantiates each registered
feature class exactly once, and the same sequence is what `ordered()` hands
to the page-claiming and finalize phases, so A's finalize hook completes
before B's begins. -/
theorem claim_C7_feature_ordering (features : List FClass) (A B : FClass)
    (out : List String)
    (hnodup : (features.map (fun f => f.name)).Nodup)
    (hA : A ∈ features) (hB : B ∈ features)
    (hrel : B.name ∈ A.runBefore ∨ A.name ∈ B.runAfter)
    (hcommit : commit features = some out) :
    List.Sublist [A.name, B.name] out
    ∧ (∀ f ∈ features, out.count f.name = 1)
    ∧ loadPhaseOrder features = some out
    ∧ finalizePhaseOrder features = some out := by
  have hload : loadPhaseOrder features = some out := hcommit
  have hfin : finalizePhaseOrder features = some out := hcommit
  unfold commit at hcommit
  cases hsort : topoSort (features.map (fun f => f.name)) (buildEdges features) with
  | none =>
      rw [hsort] at hcommit
      cases hcommit
  | some sorted =>
      rw [hsort] at hcommit
      unfold topoSort at hsort
      have hsnodup : sorted.Nodup :=
        topoGo_nodup _ _ _ _ hnodup hsort
      have hout : out = sorted := by
        cases hcommit
        exact dedupKeep_eq_self sorted hsnodup
      subst hout
      have hedge := mem_buildEdges_of_declared features A B hA hB hrel
      have huA : A.name ∈ features.map (fun f => f.name) :=
        List.mem_map_of_mem (fun f => f.name) hA
      have huB : B.name ∈ features.map (fun f => f.name) :=
        List.mem_map_of_mem (fun f => f.name) hB
      refine ⟨topoGo_sublist _ _ _ _ _ _ hnodup hsort hedge huA huB, ?_, hload, hfin⟩
      intro f hf
      have hmem : f.name ∈ out :=
        (topoGo_mem _ _ _ _ hnodup hsort f.name).mpr
          (List.mem_map_of_mem (fun f => f.name) hf)
      exact List.count_eq_one_of_mem hsnodup hmem

theorem claim_C7_feature_ordering_witness :
    List.Sublist ["A", "B"] ["A", "B"]
    ∧ (∀ f ∈ [(⟨"B", [], []⟩ : FClass), ⟨"A", ["B"], []⟩],
        (["A", "B"] : List String).count f.name = 1)
    ∧ loadPhaseOrder [⟨"B", [], []⟩, ⟨"A", ["B"], []⟩] = some ["A", "B"]
    ∧ finalizePhaseOrder [⟨"B", [], []⟩, ⟨"A", ["B"], []⟩] = some ["A", "B"] :=
  claim_C7_feature_ordering [⟨"B", [], []⟩, ⟨"A", ["B"], []⟩]
    ⟨"A", ["B"], []⟩ ⟨"B", [], []⟩ ["A", "B"]
    (by decide) (by decide) (by decide) (Or.inl (by decide)) (by decide)

/-- One feature class with its `RUN_BEFORE`/`RUN_AFTER` references to
unregistered names removed — the declarations the spec says the dropped
edges are equivalent to never having made. -/
def pruneF (features : List FClass) (f : FClass) : FClass :=
  { f with
      runBefore := f.runBefore.filter (fun n => features.any (fun g => g.name == n)),
      runAfter := f.runAfter.filter (fun n => features.any (fun g => g.name == n)) }

/-- The registered features with every unknown ordering reference removed. -/
def pruneUnknownRefs (features : List FClass) : List FClass :=
  features.map (pruneF features)

theorem filterMap_if_filter {B : Type} (l : List String) (c : String → Bool)
    (g : String → B) :
    (l.filter c).filterMap (fun n => if c n then some (g n) else none)
      = l.filterMap (fun n => if c n then some (g n) else none) := by
  induction l with
  | nil => rfl
  | cons n rest ih =>
      by_cases h : c n = true
      · simp [List.filter_cons, h, List.filterMap_cons, ih]
      · simp only [Bool.not_eq_true] at h
        simp [List.filter_cons, h, List.filterMap_cons, ih]

theorem pruneUnknownRefs_names (features : List FClass) :
    (pruneUnknownRefs features).map (fun f => f.name)
      = features.map (fun f => f.name) := by
  unfold pruneUnknownRefs
  rw [List.map_map]
  rfl

theorem pruneUnknownRefs_any (features : List FClass) (n : String) :
    (pruneUnknownRefs features).any (fun g => g.name == n)
      = features.any (fun g => g.name == n) := by
  unfold pruneUnknownRefs
  rw [List.any_map]
  rfl

theorem featureEdgeList_pruneF (features : List FClass) (f : FClass) :
    featureEdgeList (pruneUnknownRefs features) (pruneF features f)
      = featureEdgeList features f := by
  unfold featureEdgeList pruneF
  dsimp only
  simp only [pruneUnknownRefs_any]
  rw [filterMap_if_filter, filterMap_if_filter]

theorem buildEdges_prune (features : List FClass) :
    buildEdges (pruneUnknownRefs features) = buildEdges features := by
  rw [buildEdges_eq_flatten, buildEdges_eq_flatten]
  have : pruneUnknownRefs features = features.map (pruneF features) := rfl
  rw [this, List.map_map]
  congr 1
  refine List.map_congr_left ?_
  intro f _
  exact featureEdgeList_pruneF features f

/-- C9: an ordering reference to an unregistered feature name contributes no
edge — the dependency graph equals the one built after deleting every
unknown reference, every edge endpoint is a registered feature name, and
`commit` (hence the topological order) is unchanged by unknown references,
so sorting and committing still succeed exactly as without them. -/
theorem claim_C9_unknown_refs_dropped (features : List FClass) :
    buildEdges features = buildEdges (pruneUnknownRefs features)
    ∧ (∀ e ∈ buildEdges features,
        (∃ f ∈ features, f.name = e.1) ∧ (∃ g ∈ features, g.name = e.2))
    ∧ commit features = commit (pruneUnknownRefs features) := by
  refine ⟨(buildEdges_prune features).symm, ?_, ?_⟩
  · intro e he
    rw [buildEdges_eq_flatten] at he
    obtain ⟨lf, hlf, helf⟩ := List.mem_flatten.mp he
    obtain ⟨f, hf, rfl⟩ := List.mem_map.mp hlf
    unfold featureEdgeList at helf
    rcases List.mem_append.mp helf with hafter | hbefore
    · obtain ⟨name, hn, hif⟩ := List.mem_filterMap.mp hafter
      by_cases hreg : features.any (fun g => g.name == name) = true
      · rw [if_pos hreg] at hif
        cases hif
        obtain ⟨g, hg, hgn⟩ := List.any_eq_true.mp hreg
        exact ⟨⟨g, hg, beq_iff_eq.mp hgn⟩, ⟨f, hf, rfl⟩⟩
      · rw [if_neg hreg] at hif
        cases hif
    · obtain ⟨name, hn, hif⟩ := List.mem_filterMap.mp hbefore
      by_cases hreg : features.any (fun g => g.name == name) = true
      · rw [if_pos hreg] at hif
        cases hif
        obtain ⟨g, hg, hgn⟩ := List.any_eq_true.mp hreg
        exact ⟨⟨f, hf, rfl⟩, ⟨g, hg, beq_iff_eq.mp hgn⟩⟩
      · rw [if_neg hreg] at hif
        cases hif
  · unfold commit topoSort
    rw [buildEdges_prune, pruneUnknownRefs_names]

theorem claim_C9_unknown_refs_dropped_witness :
    commit [(⟨"A", ["B", "ghost"], ["phantom"]⟩ : FClass), ⟨"B", [], []⟩]
      = commit (pruneUnknownRefs
          [(⟨"A", ["B", "ghost"], ["phantom"]⟩ : FClass), ⟨"B", [], []⟩]) :=
  (claim_C9_unknown_refs_dropped
    [(⟨"A", ["B", "ghost"], ["phantom"]⟩ : FClass), ⟨"B", [], []⟩]).2.2

end Staticsite
